import Mathlib

/-!
Shallow embedding of the spreadsheet core in `src/src/Components/ExcelGrid.tsx`:
the A1 reference codec (`getColumnLabel`, `parseReference`), the formula
evaluator (`evaluateFormula`, which in the source substitutes cell references
into the text and evaluates the result as JavaScript; its arithmetic fragment
is modelled here),
the cell store and its update operation (`updateCell`, whose recalculation is an
unbounded `while (changed)` loop, modelled here with an explicit pass counter),
and the viewport windower (`visibleRange`).

JavaScript numbers are modelled exactly by `JSNum`: finite values are exact
rationals (`Q`, an unreduced numerator/denominator pair), plus `inf`, `negInf`
and `nan` with the usual IEEE-style propagation rules for `+ - * /`.  Exact
rationals agree with binary64 arithmetic on all values the claims exercise
(small integers); rounding of non-representable results is not modelled.
-/

set_option maxHeartbeats 1000000

namespace Spreadsheet

/-! ### Characters and digit strings -/

/-- `[A-Z]` as a code-point test, matching the character class of the regexes
`^([A-Z]+)(\d+)$` and `/[A-Z]+\d+/g` in the source. -/
def isUpperChar (c : Char) : Bool := 65 ≤ c.toNat && c.toNat ≤ 90

/-- `\d`, i.e. `[0-9]`. -/
def isDigitChar (c : Char) : Bool := 48 ≤ c.toNat && c.toNat ≤ 57

/-- ASCII letters `[a-zA-Z]` (used only to tokenize identifiers such as
`Infinity` in evaluated expressions). -/
def isLetterChar (c : Char) : Bool :=
  (65 ≤ c.toNat && c.toNat ≤ 90) || (97 ≤ c.toNat && c.toNat ≤ 122)

/-- JavaScript whitespace characters relevant to expression text. -/
def isSpaceChar (c : Char) : Bool :=
  c.toNat = 32 || c.toNat = 9 || c.toNat = 10 || c.toNat = 13

/-- Value of a run of decimal digit characters, most significant first;
this is how `parseInt` reads an all-digit string. -/
def digitsVal (l : List Char) : Nat :=
  l.foldl (fun a c => a * 10 + (c.toNat - 48)) 0

/-- The digit character for `n < 10`. -/
def digitChar (n : Nat) : Char := Char.ofNat (48 + n)

/-- Decimal digits of `n`, most significant first, with structural fuel so the
definition evaluates in the kernel.  `natDigits` below supplies enough fuel. -/
def natDigitsGo : Nat → Nat → List Char
  | 0, _ => []
  | fuel + 1, n =>
    if n < 10 then [digitChar n]
    else natDigitsGo fuel (n / 10) ++ [digitChar (n % 10)]

/-- Decimal digits of `n`, most significant first (`7 ↦ "7"`, `42 ↦ "42"`). -/
def natDigits (n : Nat) : List Char := natDigitsGo (n + 1) n

/-! ### Exact rationals

An unreduced fraction `n / d`.  The denominator is kept positive by all
operations below; equality of JavaScript numbers (`===`) is numeric, so it is
modelled by cross-multiplication (`Q.eqb`), not structural equality. -/

structure Q where
  n : Int
  d : Nat
deriving DecidableEq

def Q.ofNat (k : Nat) : Q := ⟨(k : Int), 1⟩

/-- Numeric equality of fractions (cross-multiplication). -/
def Q.eqb (a b : Q) : Bool := decide (a.n * (b.d : Int) = b.n * (a.d : Int))

def Q.add (a b : Q) : Q := ⟨a.n * (b.d : Int) + b.n * (a.d : Int), a.d * b.d⟩

def Q.sub (a b : Q) : Q := ⟨a.n * (b.d : Int) - b.n * (a.d : Int), a.d * b.d⟩

def Q.mul (a b : Q) : Q := ⟨a.n * b.n, a.d * b.d⟩

/-- Division of nonzero-denominator fractions assuming the divisor is
numerically nonzero (the zero case is handled in `JSNum.div`). -/
def Q.divnz (a b : Q) : Q :=
  if b.n < 0 then ⟨-(a.n * (b.d : Int)), a.d * b.n.natAbs⟩
  else ⟨a.n * (b.d : Int), a.d * b.n.natAbs⟩

def Q.neg (a : Q) : Q := ⟨-a.n, a.d⟩

def Q.isZero (a : Q) : Bool := decide (a.n = 0)

def Q.isNeg (a : Q) : Bool := decide (a.n < 0)

/-- Integer part of a nonnegative fraction. -/
def Q.ipart (a : Q) : Nat := a.n.toNat / a.d

/-! ### JavaScript numbers -/

/-- A JavaScript number: an exact finite value, an infinity, or `NaN`. -/
inductive JSNum where
  | num (q : Q)
  | inf
  | negInf
  | nan
deriving DecidableEq

def JSNum.neg : JSNum → JSNum
  | .num q => .num q.neg
  | .inf => .negInf
  | .negInf => .inf
  | .nan => .nan

def JSNum.add : JSNum → JSNum → JSNum
  | .nan, _ => .nan
  | _, .nan => .nan
  | .inf, .negInf => .nan
  | .negInf, .inf => .nan
  | .inf, _ => .inf
  | _, .inf => .inf
  | .negInf, _ => .negInf
  | _, .negInf => .negInf
  | .num a, .num b => .num (a.add b)

def JSNum.sub (a b : JSNum) : JSNum :=
  match a, b with
  | .num x, .num y => .num (x.sub y)
  | x, y => JSNum.add x (JSNum.neg y)

def JSNum.mul : JSNum → JSNum → JSNum
  | .nan, _ => .nan
  | _, .nan => .nan
  | .inf, .inf => .inf
  | .inf, .negInf => .negInf
  | .negInf, .inf => .negInf
  | .negInf, .negInf => .inf
  | .inf, .num b => if b.isZero then .nan else if b.isNeg then .negInf else .inf
  | .num a, .inf => if a.isZero then .nan else if a.isNeg then .negInf else .inf
  | .negInf, .num b => if b.isZero then .nan else if b.isNeg then .inf else .negInf
  | .num a, .negInf => if a.isZero then .nan else if a.isNeg then .inf else .negInf
  | .num a, .num b => .num (a.mul b)

def JSNum.div : JSNum → JSNum → JSNum
  | .nan, _ => .nan
  | _, .nan => .nan
  | .inf, .inf => .nan
  | .inf, .negInf => .nan
  | .negInf, .inf => .nan
  | .negInf, .negInf => .nan
  | .num _a, .inf => .num ⟨0, 1⟩
  | .num _a, .negInf => .num ⟨0, 1⟩
  | .inf, .num b => if b.isNeg then .negInf else .inf
  | .negInf, .num b => if b.isNeg then .inf else .negInf
  | .num a, .num b =>
    if b.isZero then
      if a.isZero then .nan
      else if a.isNeg then .negInf
      else .inf
    else .num (a.divnz b)

/-- JavaScript strict equality `===` on numbers: numeric comparison, with
`NaN !== NaN`. -/
def JSNum.seq : JSNum → JSNum → Bool
  | .num a, .num b => a.eqb b
  | .inf, .inf => true
  | .negInf, .negInf => true
  | _, _ => false

/-! ### Printing numbers (`Number.prototype.toString`)

Integers print as their decimal digits.  Finite non-integers print as a decimal
expansion; the expansion is cut off after 20 fractional digits, which models
the shortest-round-trip printing of binary64 values faithfully for every value
that occurs in the claims (all integers). -/

/-- Fractional decimal digits of a fraction in `[0, 1)`, produced by long
division, at most `fuel` of them and stopping at an exact zero remainder. -/
def fracDigits : Nat → Q → List Char
  | 0, _ => []
  | fuel + 1, r =>
    if r.isZero then []
    else
      let r10 := r.mul ⟨10, 1⟩
      let d := r10.ipart
      digitChar d :: fracDigits fuel (r10.sub (Q.ofNat d))

/-- Decimal string of a nonnegative fraction. -/
def qToStringNN (q : Q) : List Char :=
  let ip := q.ipart
  let fr := q.sub (Q.ofNat ip)
  if fr.isZero then natDigits ip
  else natDigits ip ++ [Char.ofNat 46] ++ fracDigits 20 fr

/-- Decimal string of a fraction. -/
def qToString (q : Q) : List Char :=
  if q.isNeg then Char.ofNat 45 :: qToStringNN q.neg else qToStringNN q

/-- `toString` of a JavaScript number. -/
def JSNum.toStr : JSNum → List Char
  | .num q => qToString q
  | .inf => "Infinity".data
  | .negInf => "-Infinity".data
  | .nan => "NaN".data

/-! ### Grid constants (source lines 22-27) -/

def CELL_WIDTH : Nat := 100
def CELL_HEIGHT : Nat := 30
def TOTAL_ROWS : Nat := 10000
def TOTAL_COLS : Nat := 10000

/-! ### Reference codec -/

/-- The loop body of `getColumnLabel` (source lines 29-36): bijective base-26.
The JavaScript loop prepends `String.fromCharCode(65 + col % 26)` and continues
with `Math.floor(col / 26) - 1` while `col >= 0`; this is the equivalent
recursion on nonnegative `col`. -/
def getColumnLabelAux (col : Nat) : List Char :=
  if _h : col < 26 then [Char.ofNat (65 + col)]
  else getColumnLabelAux (col / 26 - 1) ++ [Char.ofNat (65 + col % 26)]
termination_by col
decreasing_by
  have h10 : col / 26 < col := Nat.div_lt_self (by omega) (by omega)
  omega

/-- `getColumnLabel` from the source: column index to letter label. -/
def getColumnLabel (col : Nat) : String := String.mk (getColumnLabelAux col)

/-- The `{ row, col }` pair returned by `parseReference`.  The source performs
no range checks, so both fields are plain integers: `row` is
`parseInt(rowStr) - 1` and can be `-1`. -/
structure CellPosition where
  row : Int
  col : Int
deriving DecidableEq

/-- Letter-run decoding loop of `parseReference` (source lines 43-46):
`col = col * 26 + (charCode - 64)` over the letters. -/
def decodeColNat (l : List Char) : Nat :=
  l.foldl (fun a c => a * 26 + (c.toNat - 64)) 0

/-- `parseReference` (source lines 38-51).  The regex `^([A-Z]+)(\d+)$` demands
the whole string be a nonempty uppercase run followed by a nonempty digit run;
since no digit is uppercase, the greedy letter run is exactly the maximal
uppercase run, so the match is `(takeWhile, dropWhile)`. -/
def parseReference (s : String) : Option CellPosition :=
  let letters := s.data.takeWhile isUpperChar
  let rest := s.data.dropWhile isUpperChar
  if letters.isEmpty then none
  else if rest.isEmpty then none
  else if rest.all isDigitChar then
    some ⟨(digitsVal rest : Int) - 1, (decodeColNat letters : Int) - 1⟩
  else none

/-! ### Viewport windower (`visibleRange`, source lines 95-108)

Scroll offsets and viewport dimensions are nonnegative pixel counts.  A
fractional DOM offset `x` passes through `Math.floor(x / size)`, which equals
`floor(floor(x) / size)`, so natural-number inputs cover all real inputs. -/

structure VisibleRangeOut where
  rowLength : Int
  startRow : Nat
  endRow : Nat
  startCol : Nat
  endCol : Nat
deriving DecidableEq

def visibleRange (scrollTop scrollLeft height width : Nat) : VisibleRangeOut :=
  let startRow := scrollTop / CELL_HEIGHT
  let endRow := min (startRow + height / CELL_HEIGHT + 2) TOTAL_ROWS
  let startCol := scrollLeft / CELL_WIDTH
  let endCol := min (startCol + width / CELL_WIDTH + 2) TOTAL_COLS
  ⟨(endRow : Int) - (startRow : Int), startRow, endRow, startCol, endCol⟩

/-! ### The arithmetic expression evaluator

The source evaluates the substituted expression text with
`Function('"use strict"; return (...)')()` inside `try/catch` (lines 57-77) —
full JavaScript evaluation of dynamically generated code.  Only the arithmetic
fragment of that evaluation is modelled here: decimal literals, the substituted
numeric strings (including `Infinity` and `NaN`), and `+ - * / ( )`.  On this
fragment `jsEval` agrees with the engine: `some x` is a normally returned
number, `none` a thrown (syntax or reference) error.  Expression texts outside
the fragment that real JavaScript evaluates successfully — string or boolean
results such as `"abc"` or `1>2`, built-in calls such as `Math.floor(5.5)` —
are not modelled and fall into the error path here.  Every evaluation performed
in the theorems below stays inside the arithmetic fragment, where the model is
faithful. -/

inductive Tok where
  | numTok (x : JSNum)
  | plus
  | minus
  | star
  | slash
  | lparen
  | rparen
deriving DecidableEq

/-- Tokenizer state: outside any run, inside a number (integer digits and,
after a dot, fractional digits, both most recent first), or inside an
identifier (most recent first). -/
inductive ScanSt where
  | idle
  | innum (ip : List Char) (fp : Option (List Char))
  | inid (cs : List Char)
deriving DecidableEq

/-- Value of a number literal from its (reversed) digit runs; `none` for the
lone dot, which is a syntax error. -/
def numVal (ip : List Char) (fp : Option (List Char)) : Option JSNum :=
  match fp with
  | none =>
    if ip.isEmpty then none
    else some (.num (Q.ofNat (digitsVal ip.reverse)))
  | some f =>
    if ip.isEmpty && f.isEmpty then none
    else some (.num ⟨(digitsVal ip.reverse * 10 ^ f.length + digitsVal f.reverse : Nat), 10 ^ f.length⟩)

/-- Identifiers: only the number globals evaluate to values; any other
identifier is a `ReferenceError` (hence `none`). -/
def identVal (cs : List Char) : Option JSNum :=
  if cs = "Infinity".data then some .inf
  else if cs = "NaN".data then some .nan
  else none

/-- Flush the scanner state into zero or one tokens; `none` is a syntax or
reference error. -/
def flushTok : ScanSt → Option (List Tok)
  | .idle => some []
  | .innum ip fp => (numVal ip fp).map (fun x => [Tok.numTok x])
  | .inid cs => (identVal cs.reverse).map (fun x => [Tok.numTok x])

def opTok (c : Char) : Option Tok :=
  if c.toNat = 43 then some .plus
  else if c.toNat = 45 then some .minus
  else if c.toNat = 42 then some .star
  else if c.toNat = 47 then some .slash
  else if c.toNat = 40 then some .lparen
  else if c.toNat = 41 then some .rparen
  else none

/-- One-pass tokenizer; `acc` holds the tokens already produced, most recent
first. -/
def tokenizeGo : List Char → ScanSt → List Tok → Option (List Tok)
  | [], st, acc => (flushTok st).map (fun ts => (ts ++ acc).reverse)
  | c :: rest, st, acc =>
    if isDigitChar c then
      match st with
      | .idle => tokenizeGo rest (.innum [c] none) acc
      | .innum ip none => tokenizeGo rest (.innum (c :: ip) none) acc
      | .innum ip (some f) => tokenizeGo rest (.innum ip (some (c :: f))) acc
      | .inid cs => tokenizeGo rest (.inid (c :: cs)) acc
    else if isLetterChar c then
      match st with
      | .idle => tokenizeGo rest (.inid [c]) acc
      | .inid cs => tokenizeGo rest (.inid (c :: cs)) acc
      | .innum _ _ => none
    else if c.toNat = 46 then
      match st with
      | .idle => tokenizeGo rest (.innum [] (some [])) acc
      | .innum ip none => tokenizeGo rest (.innum ip (some [])) acc
      | .innum _ (some _) => none
      | .inid _ => none
    else if isSpaceChar c then
      match flushTok st with
      | some ts => tokenizeGo rest .idle (ts ++ acc)
      | none => none
    else
      match opTok c with
      | some t =>
        match flushTok st with
        | some ts => tokenizeGo rest .idle (t :: (ts ++ acc))
        | none => none
      | none => none

def tokenize (l : List Char) : Option (List Tok) := tokenizeGo l .idle []

/-- Parser mode for the combined recursive-descent parser:
`expr = term (("+" | "-") term)*`, `term = factor (("*" | "/") factor)*`,
`factor = number | "(" expr ")" | "-" factor | "+" factor`. -/
inductive PMode where
  | expr
  | exprRest (v : JSNum)
  | term
  | termRest (v : JSNum)
  | factor

/-- Recursive-descent parser over the token list, with structural fuel (every
call strictly decreases it; `jsEval` supplies more than the maximum possible
depth, so exhaustion never occurs on inputs the fuel bound admits). -/
def parseGo : Nat → PMode → List Tok → Option (JSNum × List Tok)
  | 0, _, _ => none
  | fuel + 1, mode, toks =>
    match mode with
    | .expr =>
      match parseGo fuel .term toks with
      | some (v, rest) => parseGo fuel (.exprRest v) rest
      | none => none
    | .exprRest v =>
      match toks with
      | .plus :: rest =>
        match parseGo fuel .term rest with
        | some (w, rest2) => parseGo fuel (.exprRest (JSNum.add v w)) rest2
        | none => none
      | .minus :: rest =>
        match parseGo fuel .term rest with
        | some (w, rest2) => parseGo fuel (.exprRest (JSNum.sub v w)) rest2
        | none => none
      | _ => some (v, toks)
    | .term =>
      match parseGo fuel .factor toks with
      | some (v, rest) => parseGo fuel (.termRest v) rest
      | none => none
    | .termRest v =>
      match toks with
      | .star :: rest =>
        match parseGo fuel .factor rest with
        | some (w, rest2) => parseGo fuel (.termRest (JSNum.mul v w)) rest2
        | none => none
      | .slash :: rest =>
        match parseGo fuel .factor rest with
        | some (w, rest2) => parseGo fuel (.termRest (JSNum.div v w)) rest2
        | none => none
      | _ => some (v, toks)
    | .factor =>
      match toks with
      | .numTok x :: rest => some (x, rest)
      | .lparen :: rest =>
        match parseGo fuel .expr rest with
        | some (v, .rparen :: rest2) => some (v, rest2)
        | _ => none
      | .minus :: rest =>
        match parseGo fuel .factor rest with
        | some (v, rest2) => some (JSNum.neg v, rest2)
        | none => none
      | .plus :: rest => parseGo fuel .factor rest
      | _ => none

/-- Evaluate an expression text as JavaScript arithmetic: `some x` models a
returned number, `none` a thrown (and subsequently caught) error. -/
def jsEval (l : List Char) : Option JSNum :=
  match tokenize l with
  | none => none
  | some toks =>
    match parseGo (4 * toks.length + 4) .expr toks with
    | some (v, []) => some v
    | _ => none

/-! ### Cell store -/

/-- A cell value: `evaluateFormula` returns the number itself when
`typeof result === "number"` and a string otherwise (in particular the error
marker produced by the `catch`). -/
inductive Value where
  | num (x : JSNum)
  | str (s : String)
deriving DecidableEq

/-- JavaScript `===` on `number | string` values (no coercion). -/
def Value.seq : Value → Value → Bool
  | .num a, .num b => JSNum.seq a b
  | .str a, .str b => a == b
  | _, _ => false

/-- `computed !== prevComputed` where `prevComputed` may be `undefined`
(`undefined === v` is false for every value `v`). -/
def optValEq (o : Option Value) (v : Value) : Bool :=
  match o with
  | some w => Value.seq w v
  | none => false

def Value.toStr : Value → List Char
  | .num x => x.toStr
  | .str s => s.data

/-- `CellData` (source lines 11-15). -/
structure CellData where
  value : String
  formula : Option String
  computed : Option Value
deriving DecidableEq

/-- The cell map: a JavaScript `Map` in insertion order, keyed by the string
`row + "-" + col`. -/
def Store := List (String × CellData)
deriving DecidableEq

/-- The template-literal key `row + "-" + col`. -/
def mkKey (row col : Int) : String := toString row ++ "-" ++ toString col

def Store.get (s : Store) (k : String) : Option CellData :=
  (List.find? (fun kv => kv.1 == k) s).map (fun kv => kv.2)

/-- `Map.set`: overwrite in place if the key is present (keeping its iteration
position), append otherwise. -/
def Store.set (s : Store) (k : String) (v : CellData) : Store :=
  if List.any s (fun kv => kv.1 == k) then
    List.map (fun kv => if kv.1 == k then (k, v) else kv) s
  else List.append s [(k, v)]

/-- `Map.delete`. -/
def Store.delete (s : Store) (k : String) : Store :=
  List.filter (fun kv => !(kv.1 == k)) s

/-- `value.startsWith("=")`. -/
def isFormulaB (s : String) : Bool :=
  match s.data with
  | c :: _ => c.toNat = 61
  | [] => false

/-! ### `parseFloat` (used on literal cell text, source line 69) -/

/-- JavaScript `parseFloat`: skip leading whitespace, then read the longest
prefix of the form `[+-]? (digits [. digits] | . digits | Infinity)
[(e|E) [+-]? digits]`; `NaN` when no prefix parses. -/
def parseFloatJS (l : List Char) : JSNum :=
  let l1 := l.dropWhile isSpaceChar
  let neg : Bool := match l1 with
    | c :: _ => c.toNat = 45
    | [] => false
  let l2 := match l1 with
    | c :: rest => if c.toNat = 45 || c.toNat = 43 then rest else l1
    | [] => l1
  if l2.take 8 = "Infinity".data then
    if neg then .negInf else .inf
  else
    let ip := l2.takeWhile isDigitChar
    let rest1 := l2.dropWhile isDigitChar
    let hasDot : Bool := match rest1 with
      | c :: _ => c.toNat = 46
      | [] => false
    let fp := if hasDot then rest1.tail.takeWhile isDigitChar else []
    let rest2 := if hasDot then rest1.tail.dropWhile isDigitChar else rest1
    if ip.isEmpty && fp.isEmpty then .nan
    else
      let mantNum : Int := (digitsVal ip * 10 ^ fp.length + digitsVal fp : Nat)
      let mantDen : Nat := 10 ^ fp.length
      let expVal : Option (Bool × Nat) := match rest2 with
        | e :: r3 =>
          if e.toNat = 101 || e.toNat = 69 then
            let eneg : Bool := match r3 with
              | c :: _ => c.toNat = 45
              | [] => false
            let r4 := match r3 with
              | c :: rest => if c.toNat = 45 || c.toNat = 43 then rest else r3
              | [] => r3
            let eds := r4.takeWhile isDigitChar
            if eds.isEmpty then none else some (eneg, digitsVal eds)
          else none
        | [] => none
      let q : Q := match expVal with
        | none => ⟨mantNum, mantDen⟩
        | some (true, e) => ⟨mantNum, mantDen * 10 ^ e⟩
        | some (false, e) => ⟨mantNum * 10 ^ e, mantDen⟩
      .num (if neg then q.neg else q)

/-! ### Reference substitution and `evaluateFormula` (source lines 53-78) -/

/-- The replacement callback of `expression.replace(/[A-Z]+\d+/g, ...)`
(source lines 59-71) applied to one match `m`. -/
def substRef (m : String) (cells : Store) : List Char :=
  match parseReference m with
  | none => [Char.ofNat 48]
  | some pos =>
    match cells.get (mkKey pos.row pos.col) with
    | none => [Char.ofNat 48]
    | some cell =>
      match cell.computed with
      | some v => v.toStr
      | none =>
        match parseFloatJS cell.value.data with
        | .nan => [Char.ofNat 48]
        | x => x.toStr

/-- Scanner state for the global regex replace: outside a match, inside an
uppercase run, or inside the digit run following an uppercase run (runs kept
most recent first). -/
inductive RSt where
  | out
  | letters (ls : List Char)
  | digits (ls ds : List Char)

/-- Text emitted for a pending scanner state at a match boundary: a complete
`[A-Z]+\d+` match is replaced, anything else is passed through unchanged. -/
def refFlush (cells : Store) : RSt → List Char
  | .out => []
  | .letters ls => ls.reverse
  | .digits ls ds => substRef (String.mk (ls.reverse ++ ds.reverse)) cells

/-- Left-to-right scan implementing `replace(/[A-Z]+\d+/g, ...)`: the regex
matches each maximal uppercase run that is immediately followed by at least one
digit, together with the maximal digit run after it. -/
def replaceRefsGo (cells : Store) : List Char → RSt → List Char
  | [], st => refFlush cells st
  | c :: rest, st =>
    if isUpperChar c then
      match st with
      | .out => replaceRefsGo cells rest (.letters [c])
      | .letters ls => replaceRefsGo cells rest (.letters (c :: ls))
      | .digits ls ds => refFlush cells (.digits ls ds) ++ replaceRefsGo cells rest (.letters [c])
    else if isDigitChar c then
      match st with
      | .out => c :: replaceRefsGo cells rest .out
      | .letters ls => replaceRefsGo cells rest (.digits ls [c])
      | .digits ls ds => replaceRefsGo cells rest (.digits ls (c :: ds))
    else
      refFlush cells st ++ c :: replaceRefsGo cells rest .out

def replaceRefs (expr : List Char) (cells : Store) : List Char :=
  replaceRefsGo cells expr .out

/-- `evaluateFormula`: strip the leading `=`, substitute references, evaluate;
a thrown error becomes the error marker string. -/
def evaluateFormula (formula : String) (cells : Store) : Value :=
  let expression := formula.data.drop 1
  let processed := replaceRefs expression cells
  match jsEval processed with
  | some x => Value.num x
  | none => Value.str "#ERROR"

/-! ### Store update and recalculation (source lines 110-153) -/

/-- `getCellData` (source lines 110-116): `cells.get(key) || null`. -/
def getCellData (cells : Store) (row col : Int) : Option CellData :=
  cells.get (mkKey row col)

/-- The direct write performed by `updateCell` before the recalculation loop
(source lines 119-133).  A freshly typed formula is evaluated against the store
before the new record is inserted. -/
def directWrite (row col : Int) (value : String) (prev : Store) : Store :=
  let key := mkKey row col
  if value = "" then prev.delete key
  else
    let isF := isFormulaB value
    let cd : CellData :=
      ⟨value, if isF then some value else none,
        if isF then some (evaluateFormula value prev) else none⟩
    prev.set key cd

/-- One step of the `forEach` body of a recalculation pass (source lines
138-148): re-evaluate the formula cell at key `k` against the current store and
record whether its cached value changed. -/
def recalcStep (acc : Store × Bool) (k : String) : Store × Bool :=
  match acc.1.get k with
  | some cell =>
    match cell.formula with
    | some f =>
      let c := evaluateFormula f acc.1
      if optValEq cell.computed c then acc
      else (acc.1.set k { cell with computed := some c }, true)
    | none => acc
  | none => acc

/-- One full pass of the convergence loop: iterate the store keys in insertion
order, updating in place so that later cells see earlier updates of the same
pass. -/
def recalcPass (s : Store) : Store × Bool :=
  List.foldl recalcStep (s, false) (List.map (fun kv => kv.1) s)

/-- The `while (changed)` loop with an explicit pass counter.  The source loop
has no counter; when some pass reports no change the result is independent of
any sufficiently large `fuel` and equals the value the source loop returns. -/
def recalcLoop : Nat → Store → Store
  | 0, s => s
  | fuel + 1, s =>
    match recalcPass s with
    | (s2, true) => recalcLoop fuel s2
    | (s2, false) => s2

/-- `updateCell` (source lines 118-153) with an explicit pass counter for the
recalculation loop. -/
def updateCell (fuel : Nat) (row col : Int) (value : String) (prev : Store) : Store :=
  recalcLoop fuel (directWrite row col value prev)

/-- The store after `n` recalculation passes (for reasoning about the
unbounded source loop pass by pass). -/
def passIter : Nat → Store → Store
  | 0, s => s
  | n + 1, s => (recalcPass (passIter n s)).1

/-! ## General list helpers -/

theorem takeWhile_append_of_all {α : Type} {p : α → Bool} :
    ∀ (l r : List α), (∀ c ∈ l, p c = true) → (l ++ r).takeWhile p = l ++ r.takeWhile p := by
  intro l r h
  induction l with
  | nil => simp
  | cons c t ih =>
    have hc : p c = true := h c (List.mem_cons_self c t)
    simp [List.takeWhile, hc]
    exact ih fun x hx => h x (List.mem_cons_of_mem c hx)

theorem dropWhile_append_of_all {α : Type} {p : α → Bool} :
    ∀ (l r : List α), (∀ c ∈ l, p c = true) → (l ++ r).dropWhile p = r.dropWhile p := by
  intro l r h
  induction l with
  | nil => simp
  | cons c t ih =>
    have hc : p c = true := h c (List.mem_cons_self c t)
    simp [List.dropWhile, hc]
    exact ih fun x hx => h x (List.mem_cons_of_mem c hx)

/-! ## Decimal digit lemmas -/

theorem natDigitsGo_spec (fuel : Nat) :
    ∀ n, n < fuel →
      digitsVal (natDigitsGo fuel n) = n ∧
      natDigitsGo fuel n ≠ [] ∧
      (∀ c ∈ natDigitsGo fuel n, isDigitChar c = true) := by
  induction fuel with
  | zero => intro n h; omega
  | succ fuel ih =>
    intro n hn
    rw [natDigitsGo]
    by_cases h10 : n < 10
    · simp only [if_pos h10]
      refine ⟨?_, by simp, ?_⟩
      · have : (digitChar n).toNat = 48 + n := by
          interval_cases n <;> decide
        simp [digitsVal, this]
      · intro c hc
        simp only [List.mem_singleton] at hc
        subst hc
        interval_cases n <;> decide
    · simp only [if_neg h10]
      have hdiv : n / 10 < fuel := by
        have : n / 10 < n := Nat.div_lt_self (by omega) (by omega)
        omega
      obtain ⟨hval, hne, hdig⟩ := ih (n / 10) hdiv
      have hmod : n % 10 < 10 := Nat.mod_lt _ (by omega)
      have hchar : (digitChar (n % 10)).toNat = 48 + n % 10 := by
        set m := n % 10 with hm
        interval_cases m <;> decide
      refine ⟨?_, by simp, ?_⟩
      · simp only [digitsVal] at hval ⊢
        rw [List.foldl_append, hval]
        simp only [List.foldl, hchar]
        have := Nat.div_add_mod n 10
        omega
      · intro c hc
        rcases List.mem_append.mp hc with h | h
        · exact hdig c h
        · simp only [List.mem_singleton] at h
          subst h
          set m := n % 10 with hm
          interval_cases m <;> decide

theorem digitsVal_natDigits (n : Nat) : digitsVal (natDigits n) = n :=
  (natDigitsGo_spec (n + 1) n (by omega)).1

theorem natDigits_ne_nil (n : Nat) : natDigits n ≠ [] :=
  (natDigitsGo_spec (n + 1) n (by omega)).2.1

theorem natDigits_all_digit (n : Nat) : ∀ c ∈ natDigits n, isDigitChar c = true :=
  (natDigitsGo_spec (n + 1) n (by omega)).2.2

/-! ## Column label codec lemmas -/

theorem upperChar_toNat (m : Nat) (h : m < 26) : (Char.ofNat (65 + m)).toNat = 65 + m := by
  interval_cases m <;> decide

theorem upperChar_isUpper (m : Nat) (h : m < 26) : isUpperChar (Char.ofNat (65 + m)) = true := by
  interval_cases m <;> decide

theorem getColumnLabelAux_ne_nil (col : Nat) : getColumnLabelAux col ≠ [] := by
  rw [getColumnLabelAux]
  split <;> simp

theorem getColumnLabelAux_all_upper (col : Nat) :
    ∀ c ∈ getColumnLabelAux col, isUpperChar c = true := by
  induction col using Nat.strong_induction_on with
  | _ col ih =>
    rw [getColumnLabelAux]
    split
    · next h =>
      intro c hc
      simp only [List.mem_singleton] at hc
      subst hc
      exact upperChar_isUpper col h
    · next h =>
      intro c hc
      rcases List.mem_append.mp hc with hm | hm
      · have hlt : col / 26 - 1 < col := by
          have : col / 26 < col := Nat.div_lt_self (by omega) (by omega)
          omega
        exact ih _ hlt c hm
      · simp only [List.mem_singleton] at hm
        subst hm
        exact upperChar_isUpper _ (Nat.mod_lt _ (by omega))

theorem decodeColNat_getColumnLabelAux (col : Nat) :
    decodeColNat (getColumnLabelAux col) = col + 1 := by
  induction col using Nat.strong_induction_on with
  | _ col ih =>
    rw [getColumnLabelAux]
    split
    · next h =>
      have := upperChar_toNat col h
      simp [decodeColNat, this]
      omega
    · next h =>
      have hlt : col / 26 - 1 < col := by
        have : col / 26 < col := Nat.div_lt_self (by omega) (by omega)
        omega
      have hrec := ih _ hlt
      have hmod : (Char.ofNat (65 + col % 26)).toNat = 65 + col % 26 :=
        upperChar_toNat _ (Nat.mod_lt _ (by omega))
      simp only [decodeColNat] at hrec ⊢
      rw [List.foldl_append, hrec]
      simp only [List.foldl, hmod]
      have hone : 1 ≤ col / 26 := (Nat.one_le_div_iff (by omega)).mpr (by omega)
      have := Nat.div_add_mod col 26
      omega

/-- C4 — codec round-trip: for every column index, decoding the produced label
with row digit `1` appended recovers the same column (and row `0`). -/
theorem C4_label_roundtrip (col : Nat) :
    parseReference (getColumnLabel col ++ "1") = some ⟨0, (col : Int)⟩ := by
  have hdata : (getColumnLabel col ++ "1").data = getColumnLabelAux col ++ ['1'] := rfl
  have hupper := getColumnLabelAux_all_upper col
  have htake : (getColumnLabelAux col ++ ['1']).takeWhile isUpperChar = getColumnLabelAux col := by
    rw [takeWhile_append_of_all _ _ hupper]
    simp [List.takeWhile, isUpperChar]
  have hdrop : (getColumnLabelAux col ++ ['1']).dropWhile isUpperChar = ['1'] := by
    rw [dropWhile_append_of_all _ _ hupper]
    simp [List.dropWhile, isUpperChar]
  obtain ⟨b, L, hbl⟩ := List.exists_cons_of_ne_nil (getColumnLabelAux_ne_nil col)
  have hemp : (getColumnLabelAux col).isEmpty = false := by rw [hbl]; rfl
  simp only [parseReference, hdata, htake, hdrop, hemp, Bool.false_eq_true, if_false,
    List.isEmpty_cons, List.all_cons, List.all_nil, Bool.and_true]
  have hdig1 : isDigitChar '1' = true := by decide
  simp only [hdig1, if_true, decodeColNat_getColumnLabelAux col]
  have hval : digitsVal ['1'] = 1 := by decide
  simp only [hval, Option.some.injEq, CellPosition.mk.injEq]
  constructor
  · decide
  · push_cast
    omega

/-! ## C8: bounds of parsed references -/

/-- C8 counterexample: `parseReference` succeeds on `"A0"` with `row = -1`
(violating `0 ≤ row`) and on `"A10001"` with `row = 10000` (violating
`row < 10000`); the declared `CellAddress` bounds are not enforced. -/
theorem C8_counterexample :
    parseReference "A0" = some ⟨-1, 0⟩ ∧
      parseReference "A10001" = some ⟨10000, 0⟩ ∧
      ¬(∀ pos : CellPosition, parseReference "A0" = some pos →
          0 ≤ pos.row ∧ pos.row < 10000 ∧ 0 ≤ pos.col ∧ pos.col < 10000) := by
  refine ⟨by decide, by decide, fun h => ?_⟩
  exact absurd (h ⟨-1, 0⟩ (by decide)).1 (by decide)

theorem decodeColNat_pos {l : List Char} (hne : l ≠ [])
    (hup : ∀ c ∈ l, isUpperChar c = true) : 1 ≤ decodeColNat l := by
  obtain ⟨c, t, rfl⟩ := List.exists_cons_of_ne_nil hne
  have hc : isUpperChar c = true := hup c (List.mem_cons_self c t)
  have hc65 : 65 ≤ c.toNat := by
    simp only [isUpperChar, Bool.and_eq_true, decide_eq_true_eq] at hc
    exact hc.1
  simp only [decodeColNat, List.foldl]
  have key : ∀ (r : List Char) (a : Nat),
      a ≤ r.foldl (fun a c => a * 26 + (c.toNat - 64)) a := by
    intro r
    induction r with
    | nil => intro a; simp
    | cons x xs ih =>
      intro a
      simp only [List.foldl]
      calc a ≤ a * 26 + (x.toNat - 64) := by omega
        _ ≤ _ := ih _
  calc 1 ≤ 0 * 26 + (c.toNat - 64) := by omega
    _ ≤ _ := key t _

/-- C8 amended: on success the parsed position satisfies `0 ≤ col` and
`-1 ≤ row`; no upper bound is checked and `row = -1` occurs for digit run
`0`. -/
theorem C8_amended (s : String) (pos : CellPosition)
    (h : parseReference s = some pos) : 0 ≤ pos.col ∧ -1 ≤ pos.row := by
  simp only [parseReference] at h
  split at h
  · exact absurd h (by simp)
  · split at h
    · exact absurd h (by simp)
    · split at h
      · next hemp _ hdig =>
        have hne : s.data.takeWhile isUpperChar ≠ [] := by
          intro hnil
          simp [hnil] at hemp
        have hup : ∀ c ∈ s.data.takeWhile isUpperChar, isUpperChar c = true :=
          fun c hc => List.mem_takeWhile_imp hc
        have hpos := decodeColNat_pos hne hup
        obtain rfl : pos = ⟨(digitsVal (s.data.dropWhile isUpperChar) : Int) - 1,
            (decodeColNat (s.data.takeWhile isUpperChar) : Int) - 1⟩ :=
          (Option.some.injEq _ _).mp h.symm
        constructor
        · simp only []
          omega
        · simp only []
          omega
      · exact absurd h (by simp)

/-- C8 witness: `C8_amended` applied at the concrete input `"B2"`. -/
theorem C8_amended_witness :
    parseReference "B2" = some ⟨1, 1⟩ ∧
      0 ≤ (⟨1, 1⟩ : CellPosition).col ∧ -1 ≤ (⟨1, 1⟩ : CellPosition).row :=
  ⟨by decide, C8_amended "B2" ⟨1, 1⟩ (by decide)⟩

/-! ## C9: non-matching strings parse to none -/

/-- The declarative reading of the anchored regex `^([A-Z]+)(\d+)$`. -/
def RefPattern (s : String) : Prop :=
  ∃ L D : List Char, L ≠ [] ∧ D ≠ [] ∧
    (∀ c ∈ L, isUpperChar c = true) ∧ (∀ c ∈ D, isDigitChar c = true) ∧
    s.data = L ++ D

theorem refPattern_of_parse_some {s : String} {pos : CellPosition}
    (h : parseReference s = some pos) : RefPattern s := by
  simp only [parseReference] at h
  split at h
  · exact absurd h (by simp)
  · split at h
    · exact absurd h (by simp)
    · split at h
      · next hemp hemp2 hdig =>
        refine ⟨s.data.takeWhile isUpperChar, s.data.dropWhile isUpperChar,
          ?_, ?_, ?_, ?_, ?_⟩
        · intro hnil; simp [hnil] at hemp
        · intro hnil; simp [hnil] at hemp2
        · exact fun c hc => List.mem_takeWhile_imp hc
        · exact fun c hc => (List.all_eq_true.mp hdig) c hc
        · exact (List.takeWhile_append_dropWhile isUpperChar s.data).symm
      · exact absurd h (by simp)

/-- C9 — a string that does not match `[A-Z]+[0-9]+` parses to `none`.  (The
model is a total function, so no exception is possible; the substantive part is
that every failure is reported by the `none` result.) -/
theorem C9_nonmatching_none (s : String) (h : ¬RefPattern s) :
    parseReference s = none := by
  cases hp : parseReference s with
  | none => rfl
  | some pos => exact absurd (refPattern_of_parse_some hp) h

/-- C9 witness: `C9_nonmatching_none` applied at the concrete non-matching
input `"1A"`. -/
theorem C9_nonmatching_none_witness :
    ¬RefPattern "1A" ∧ parseReference "1A" = none := by
  have h : ¬RefPattern "1A" := by
    rintro ⟨L, D, hL, _hD, hup, _hdig, heq⟩
    have hdata : ("1A" : String).data = ['1', 'A'] := rfl
    rw [hdata] at heq
    obtain ⟨c, t, rfl⟩ := List.exists_cons_of_ne_nil hL
    have hc : c = '1' := by
      have := congrArg (fun l => l.head?) heq
      simpa using this.symm
    subst hc
    have := hup '1' (List.mem_cons_self _ _)
    simp [isUpperChar] at this
  exact ⟨h, C9_nonmatching_none "1A" h⟩

/-! ## C3: evaluation of `=1/0` -/

/-- C3 — the code evaluated at the failing input: JavaScript division `1/0`
yields `Infinity`, whose `typeof` is `"number"`, so `evaluateFormula` returns
`Infinity` (which is then cached), not the error marker `"#ERROR"` the claim
and spec require. -/
theorem C3_div_by_zero_yields_infinity :
    evaluateFormula "=1/0" [] = Value.num JSNum.inf ∧
      evaluateFormula "=1/0" [] ≠ Value.str "#ERROR" := by
  constructor <;> decide

/-! ## C5: viewport window bounds -/

/-- C5 counterexample: at `scrollTop = 300300` (past the end of the grid) the
computed window has `startRow = 10010 > 10000 = endRow`, so the claimed
`rowStart ≤ rowEnd` fails (`startRow` is never clamped to the totals). -/
theorem C5_counterexample :
    (visibleRange 300300 0 600 800).startRow = 10010 ∧
      (visibleRange 300300 0 600 800).endRow = 10000 ∧
      ¬((visibleRange 300300 0 600 800).startRow ≤ (visibleRange 300300 0 600 800).endRow) := by
  refine ⟨by decide, by decide, by decide⟩

/-- C5 amended: for all nonnegative inputs, `startRow` and `startCol` are
nonnegative (they are naturals), `endRow ≤ totalRows` and `endCol ≤ totalCols`
always hold, and `startRow ≤ endRow` (resp. `startCol ≤ endCol`) holds whenever
the unclamped `startRow` (resp. `startCol`) does not already exceed the total;
for scroll offsets past the end of the grid the start can exceed the end. -/
theorem C5_amended (scrollTop scrollLeft height width : Nat) :
    (visibleRange scrollTop scrollLeft height width).endRow ≤ TOTAL_ROWS ∧
      (visibleRange scrollTop scrollLeft height width).endCol ≤ TOTAL_COLS ∧
      ((visibleRange scrollTop scrollLeft height width).startRow ≤ TOTAL_ROWS →
        (visibleRange scrollTop scrollLeft height width).startRow ≤
          (visibleRange scrollTop scrollLeft height width).endRow) ∧
      ((visibleRange scrollTop scrollLeft height width).startCol ≤ TOTAL_COLS →
        (visibleRange scrollTop scrollLeft height width).startCol ≤
          (visibleRange scrollTop scrollLeft height width).endCol) := by
  simp only [visibleRange, CELL_HEIGHT, CELL_WIDTH, TOTAL_ROWS, TOTAL_COLS]
  refine ⟨Nat.min_le_right _ _, Nat.min_le_right _ _, fun h => ?_, fun h => ?_⟩
  · exact le_min (by omega) h
  · exact le_min (by omega) h

/-- C5 witness: `C5_amended` applied at a concrete in-range input. -/
theorem C5_amended_witness :
    (visibleRange 0 0 600 800).endRow ≤ TOTAL_ROWS ∧
      (visibleRange 0 0 600 800).startRow ≤ (visibleRange 0 0 600 800).endRow :=
  ⟨(C5_amended 0 0 600 800).1, (C5_amended 0 0 600 800).2.2.1 (by decide)⟩

/-! ## C2: one-hop change propagation -/

/-- C2 — after `A1 := "5"` and `B1 := "=A1*2"`, `B1` caches `10`; after the
subsequent edit `A1 := "7"`, the triggered recalculation updates `B1` to `14`.
The conjuncts about `recalcPass` certify that the recalculation loop genuinely
converged (a further pass reports no change), so the fuelled model returns
exactly what the unbounded source loop returns. -/
theorem C2_propagation :
    (getCellData (updateCell 10 0 1 "=A1*2" (updateCell 10 0 0 "5" [])) 0 1).map
        CellData.computed = some (some (Value.num (JSNum.num ⟨10, 1⟩))) ∧
      (getCellData (updateCell 10 0 0 "7"
          (updateCell 10 0 1 "=A1*2" (updateCell 10 0 0 "5" []))) 0 1).map
        CellData.computed = some (some (Value.num (JSNum.num ⟨14, 1⟩))) ∧
      (recalcPass (updateCell 10 0 1 "=A1*2" (updateCell 10 0 0 "5" []))).2 = false ∧
      (recalcPass (updateCell 10 0 0 "7"
          (updateCell 10 0 1 "=A1*2" (updateCell 10 0 0 "5" [])))).2 = false := by
  refine ⟨by decide, by decide, by decide, by decide⟩

/-! ## Store lemmas -/

theorem get_delete_self (s : Store) (k : String) : (Store.delete s k).get k = none := by
  induction s with
  | nil => rfl
  | cons kv t ih =>
    simp only [Store.delete, List.filter_cons] at ih ⊢
    by_cases h : kv.1 == k
    · simp only [h, Bool.not_true, Bool.false_eq_true, if_false]
      exact ih
    · simp only [Bool.not_eq_true] at h
      simp only [h, Bool.not_false, if_true, Store.get, List.find?_cons, h]
      exact ih

theorem get_map_replace (s : Store) (k k2 : String) (v : CellData) (hne : k ≠ k2) :
    Store.get (List.map (fun kv => if kv.1 == k2 then (k2, v) else kv) s) k = Store.get s k := by
  induction s with
  | nil => rfl
  | cons kv t ih =>
    simp only [List.map_cons, Store.get, List.find?_cons] at ih ⊢
    by_cases h2 : kv.1 = k2
    · have hk2k : (k2 == k) = false := beq_eq_false_iff_ne.mpr (fun h => hne h.symm)
      have hkvk : (kv.1 == k) = false := beq_eq_false_iff_ne.mpr (by rw [h2]; exact fun h => hne h.symm)
      simp only [h2, beq_self_eq_true, if_true, hk2k, hkvk, Bool.false_eq_true]
      exact ih
    · have h2b : (kv.1 == k2) = false := beq_eq_false_iff_ne.mpr h2
      simp only [h2b, Bool.false_eq_true, if_false]
      by_cases hk : kv.1 = k
      · simp [hk]
      · have hkb : (kv.1 == k) = false := beq_eq_false_iff_ne.mpr hk
        simp only [hkb, Bool.false_eq_true]
        exact ih

theorem get_append_single_ne (s : Store) (k k2 : String) (v : CellData) (hne : k ≠ k2) :
    Store.get (List.append s [(k2, v)]) k = Store.get s k := by
  induction s with
  | nil =>
    have : (k2 == k) = false := beq_eq_false_iff_ne.mpr (fun h => hne h.symm)
    simp [Store.get, List.find?, this]
  | cons kv t ih =>
    simp only [List.append_eq, List.cons_append, Store.get, List.find?_cons] at ih ⊢
    by_cases hk : kv.1 = k
    · simp [hk]
    · have hkb : (kv.1 == k) = false := beq_eq_false_iff_ne.mpr hk
      simp only [hkb, Bool.false_eq_true]
      exact ih

theorem get_set_ne (s : Store) (k k2 : String) (v : CellData) (hne : k ≠ k2) :
    (Store.set s k2 v).get k = s.get k := by
  unfold Store.set
  split
  · exact get_map_replace s k k2 v hne
  · exact get_append_single_ne s k k2 v hne

/-! ## C7: setting a cell to the empty string removes it -/

theorem recalcStep_get_none (acc : Store × Bool) (key k : String)
    (h : acc.1.get k = none) : (recalcStep acc key).1.get k = none := by
  unfold recalcStep
  split
  next cell hg =>
    split
    next f hf =>
      dsimp only
      split
      · exact h
      · have hne : k ≠ key := by
          intro he
          rw [he, hg] at h
          exact Option.noConfusion h
        exact (get_set_ne acc.1 k key _ hne).trans h
    next hf => exact h
  next hg => exact h

theorem foldl_recalcStep_get_none (keys : List String) :
    ∀ (acc : Store × Bool) (k : String), acc.1.get k = none →
      (List.foldl recalcStep acc keys).1.get k = none := by
  induction keys with
  | nil => intro acc k h; exact h
  | cons key t ih =>
    intro acc k h
    simp only [List.foldl]
    exact ih _ k (recalcStep_get_none acc key k h)

theorem recalcPass_get_none (s : Store) (k : String) (h : s.get k = none) :
    (recalcPass s).1.get k = none :=
  foldl_recalcStep_get_none _ (s, false) k h

theorem recalcLoop_get_none : ∀ (fuel : Nat) (s : Store) (k : String),
    s.get k = none → (recalcLoop fuel s).get k = none := by
  intro fuel
  induction fuel with
  | zero => intro s k h; exact h
  | succ fuel ih =>
    intro s k h
    rw [recalcLoop]
    have hp : (recalcPass s).1.get k = none := recalcPass_get_none s k h
    cases hpe : recalcPass s with
    | mk s2 ch =>
      rw [hpe] at hp
      cases ch
      · exact hp
      · exact ih s2 k hp

/-- C7 — for every address, prior store content and number of recalculation
passes, `updateCell` with the empty string deletes the entry for that address
(the recalculation loop never re-creates a key), so `getCellData` returns
`none` afterwards. -/
theorem C7_empty_deletes (fuel : Nat) (row col : Int) (prev : Store) :
    getCellData (updateCell fuel row col "" prev) row col = none := by
  unfold updateCell getCellData directWrite
  simp only [if_pos rfl]
  exact recalcLoop_get_none fuel _ _ (get_delete_self prev (mkKey row col))

/-! ## C6: well-formedness of stored records -/

/-- The record invariant of the claim: `rawText` nonempty, `formulaText` set
iff `rawText` begins with `=`, `computedValue` set iff `formulaText` is set. -/
def cellWF (cd : CellData) : Bool :=
  decide (cd.value ≠ "") && (cd.formula.isSome == isFormulaB cd.value) &&
    (cd.computed.isSome == cd.formula.isSome)

/-- Every record of the store satisfies `cellWF`. -/
def StoreWF (s : Store) : Prop := List.all s (fun kv => cellWF kv.2) = true

theorem storeWF_delete {s : Store} (k : String) (h : StoreWF s) :
    StoreWF (Store.delete s k) := by
  simp only [StoreWF, List.all_eq_true] at h ⊢
  intro kv hkv
  exact h kv ((List.filter_sublist s).subset hkv)

theorem storeWF_set {s : Store} {k : String} {v : CellData}
    (h : StoreWF s) (hv : cellWF v = true) : StoreWF (Store.set s k v) := by
  simp only [StoreWF, List.all_eq_true] at h ⊢
  unfold Store.set
  split
  · intro kv hkv
    obtain ⟨kv0, hkv0, hmap⟩ := List.mem_map.mp hkv
    by_cases hk : kv0.1 == k
    · simp only [hk, if_true] at hmap
      rw [← hmap]
      exact hv
    · simp only [Bool.not_eq_true] at hk
      simp only [hk, Bool.false_eq_true, if_false] at hmap
      rw [← hmap]
      exact h kv0 hkv0
  · intro kv hkv
    simp only [List.append_eq] at hkv
    rcases List.mem_append.mp hkv with hm | hm
    · exact h kv hm
    · simp only [List.mem_singleton] at hm
      rw [hm]
      exact hv

theorem cellWF_of_get {s : Store} {k : String} {cell : CellData}
    (hwf : StoreWF s) (hg : s.get k = some cell) : cellWF cell = true := by
  unfold Store.get at hg
  cases hfind : List.find? (fun kv => kv.1 == k) s with
  | none =>
    rw [hfind] at hg
    exact Option.noConfusion hg
  | some kv =>
    rw [hfind, Option.map_some'] at hg
    have hmem := List.mem_of_find?_eq_some hfind
    simp only [StoreWF, List.all_eq_true] at hwf
    rw [← (Option.some.injEq _ _).mp hg]
    exact hwf kv hmem

theorem recalcStep_wf (acc : Store × Bool) (key : String)
    (h : StoreWF acc.1) : StoreWF (recalcStep acc key).1 := by
  unfold recalcStep
  split
  next cell hg =>
    split
    next f hf =>
      dsimp only
      split
      · exact h
      · have hwcell := cellWF_of_get h hg
        refine storeWF_set h ?_
        simp only [cellWF, Bool.and_eq_true, beq_iff_eq, decide_eq_true_eq] at hwcell ⊢
        refine ⟨⟨hwcell.1.1, ?_⟩, ?_⟩
        · simpa using hwcell.1.2
        · simp [hf]
    next hf => exact h
  next hg => exact h

theorem foldl_recalcStep_wf (keys : List String) :
    ∀ acc : Store × Bool, StoreWF acc.1 → StoreWF (List.foldl recalcStep acc keys).1 := by
  induction keys with
  | nil => intro acc h; exact h
  | cons key t ih =>
    intro acc h
    exact ih _ (recalcStep_wf acc key h)

theorem recalcPass_wf (s : Store) (h : StoreWF s) : StoreWF (recalcPass s).1 :=
  foldl_recalcStep_wf _ (s, false) h

theorem recalcLoop_wf : ∀ (fuel : Nat) (s : Store), StoreWF s → StoreWF (recalcLoop fuel s) := by
  intro fuel
  induction fuel with
  | zero => intro s h; exact h
  | succ fuel ih =>
    intro s h
    rw [recalcLoop]
    have hp := recalcPass_wf s h
    cases hpe : recalcPass s with
    | mk s2 ch =>
      rw [hpe] at hp
      cases ch
      · exact hp
      · exact ih s2 hp

theorem directWrite_wf (row col : Int) (value : String) (prev : Store)
    (h : StoreWF prev) : StoreWF (directWrite row col value prev) := by
  unfold directWrite
  split
  · exact storeWF_delete _ h
  · next hv =>
    refine storeWF_set h ?_
    cases hf : isFormulaB value <;> simp [cellWF, hf, hv]

/-- C6 — the record invariant (nonempty raw text; formula field set iff the
text begins with `=`; computed field set iff the formula field is set) is
preserved by `updateCell` (hence by any sequence of edits starting from the
empty store, which is trivially well formed) and by every single
recalculation pass. -/
theorem C6_record_invariant :
    (∀ (fuel : Nat) (row col : Int) (value : String) (prev : Store),
        StoreWF prev → StoreWF (updateCell fuel row col value prev)) ∧
      (∀ s : Store, StoreWF s → StoreWF (recalcPass s).1) := by
  constructor
  · intro fuel row col value prev h
    exact recalcLoop_wf fuel _ (directWrite_wf row col value prev h)
  · exact recalcPass_wf

/-- C6 witness: `C6_record_invariant` applied to concrete edits of the empty
store. -/
theorem C6_record_invariant_witness :
    StoreWF (updateCell 3 0 0 "=1+2" []) ∧
      StoreWF (recalcPass (updateCell 3 0 0 "5" [])).1 :=
  ⟨C6_record_invariant.1 3 0 0 "=1+2" [] (by rfl),
    C6_record_invariant.2 (updateCell 3 0 0 "5" []) (by rfl)⟩

/-! ## C1: the reference cycle `A1 = "=B1+1"`, `B1 = "=A1+1"`

The source recalculation loop is `while (changed)` with no pass bound.  On this
cycle every pass increments both cached values by `2`, so no pass ever reports
"no change" and the loop never exits.  The lemmas below compute one full pass
on the two-cell store symbolically in the cached values. -/

theorem qToString_ofNat (k : Nat) : qToString (Q.ofNat k) = natDigits k := by
  have hneg : (Q.ofNat k).isNeg = false := by
    simp [Q.isNeg, Q.ofNat]
  rw [qToString, hneg]
  simp only [Bool.false_eq_true, if_false]
  have hip : (Q.ofNat k).ipart = k := by
    simp [Q.ipart, Q.ofNat]
  simp only [qToStringNN, hip]
  have hz : ((Q.ofNat k).sub (Q.ofNat k)).isZero = true := by
    simp [Q.sub, Q.ofNat, Q.isZero]
  rw [hz]
  simp

theorem Qadd_ofNat (a b : Nat) : Q.add (Q.ofNat a) (Q.ofNat b) = Q.ofNat (a + b) := by
  simp only [Q.add, Q.ofNat, Q.mk.injEq]
  constructor
  · push_cast
    ring
  · trivial

theorem tokenizeGo_digit_run :
    ∀ (ds : List Char), (∀ c ∈ ds, isDigitChar c = true) →
      ∀ (rest ip : List Char) (acc : List Tok),
        tokenizeGo (ds ++ rest) (.innum ip none) acc =
          tokenizeGo rest (.innum (ds.reverse ++ ip) none) acc := by
  intro ds
  induction ds with
  | nil => intro _ rest ip acc; simp
  | cons c t ih =>
    intro hds rest ip acc
    have hc : isDigitChar c = true := hds c (List.mem_cons_self c t)
    rw [List.cons_append, tokenizeGo]
    simp only [hc, if_true]
    rw [ih (fun x hx => hds x (List.mem_cons_of_mem c hx)) rest (c :: ip) acc]
    have : t.reverse ++ (c :: ip) = (c :: t).reverse ++ ip := by
      simp
    rw [this]

theorem tokenize_digits_plus_one (k : Nat) :
    tokenize (natDigits k ++ ['+', '1']) =
      some [Tok.numTok (.num (Q.ofNat k)), Tok.plus, Tok.numTok (.num (Q.ofNat 1))] := by
  obtain ⟨d, ds, hds⟩ := List.exists_cons_of_ne_nil (natDigits_ne_nil k)
  have hd : isDigitChar d = true :=
    natDigits_all_digit k d (by rw [hds]; exact List.mem_cons_self d ds)
  have hall : ∀ c ∈ ds, isDigitChar c = true :=
    fun c hc => natDigits_all_digit k c (by rw [hds]; exact List.mem_cons_of_mem d hc)
  unfold tokenize
  rw [hds, List.cons_append, tokenizeGo]
  simp only [hd, if_true]
  rw [tokenizeGo_digit_run ds hall (['+', '1']) [d] []]
  have hrev : ds.reverse ++ [d] = (natDigits k).reverse := by
    rw [hds]
    simp
  rw [hrev]
  -- the character '+' flushes the accumulated number token
  have hne : (natDigits k).reverse.isEmpty = false :=
    Bool.eq_false_iff.mpr (fun h => natDigits_ne_nil k (by
      have := List.isEmpty_iff.mp h
      simpa using this))
  have hflush : flushTok (.innum (natDigits k).reverse none) =
      some [Tok.numTok (.num (Q.ofNat k))] := by
    simp only [flushTok, numVal, hne, Bool.false_eq_true, if_false,
      List.reverse_reverse, digitsVal_natDigits, Option.map_some']
  show (match flushTok (.innum ((natDigits k).reverse) none) with
        | some ts => tokenizeGo ['1'] .idle (Tok.plus :: (ts ++ []))
        | none => none) =
      some [Tok.numTok (.num (Q.ofNat k)), Tok.plus, Tok.numTok (.num (Q.ofNat 1))]
  rw [hflush]
  rfl

theorem parse_num_plus_num (a b : JSNum) :
    parseGo 16 .expr [Tok.numTok a, Tok.plus, Tok.numTok b] = some (JSNum.add a b, []) := rfl

theorem jsEval_digits_plus_one (k : Nat) :
    jsEval (natDigits k ++ ['+', '1']) =
      some (JSNum.add (.num (Q.ofNat k)) (.num (Q.ofNat 1))) := by
  unfold jsEval
  rw [tokenize_digits_plus_one k]
  have hlen : 4 * ([Tok.numTok (JSNum.num (Q.ofNat k)), Tok.plus,
      Tok.numTok (JSNum.num (Q.ofNat 1))] : List Tok).length + 4 = 16 := by
    simp
  simp only [hlen, parse_num_plus_num]

/-- The two cells of the cycle, with symbolic cached values. -/
def cdA (j : Nat) : CellData :=
  ⟨"=B1+1", some "=B1+1", some (Value.num (.num (Q.ofNat j)))⟩

def cdB (k : Nat) : CellData :=
  ⟨"=A1+1", some "=A1+1", some (Value.num (.num (Q.ofNat k)))⟩

/-- The cycle store with `A1` caching `j` and `B1` caching `k`. -/
def store2N (j k : Nat) : Store := [("0-0", cdA j), ("0-1", cdB k)]

theorem eval_B1_store2N (j k : Nat) :
    evaluateFormula "=B1+1" (store2N j k) = Value.num (.num (Q.ofNat (k + 1))) := by
  have hsub : substRef "B1" (store2N j k) = natDigits k := by
    show qToString (Q.ofNat k) = natDigits k
    exact qToString_ofNat k
  have hrepl : replaceRefs (("=B1+1" : String).data.drop 1) (store2N j k) =
      natDigits k ++ ['+', '1'] := by
    show substRef "B1" (store2N j k) ++ '+' :: ['1'] = natDigits k ++ ['+', '1']
    rw [hsub]
  show (match jsEval (replaceRefs (("=B1+1" : String).data.drop 1) (store2N j k)) with
        | some x => Value.num x
        | none => Value.str "#ERROR") = Value.num (.num (Q.ofNat (k + 1)))
  rw [hrepl, jsEval_digits_plus_one k]
  show Value.num (.num (Q.add (Q.ofNat k) (Q.ofNat 1))) = _
  rw [Qadd_ofNat]

theorem eval_A1_store2N (j k : Nat) :
    evaluateFormula "=A1+1" (store2N j k) = Value.num (.num (Q.ofNat (j + 1))) := by
  have hsub : substRef "A1" (store2N j k) = natDigits j := by
    show qToString (Q.ofNat j) = natDigits j
    exact qToString_ofNat j
  have hrepl : replaceRefs (("=A1+1" : String).data.drop 1) (store2N j k) =
      natDigits j ++ ['+', '1'] := by
    show substRef "A1" (store2N j k) ++ '+' :: ['1'] = natDigits j ++ ['+', '1']
    rw [hsub]
  show (match jsEval (replaceRefs (("=A1+1" : String).data.drop 1) (store2N j k)) with
        | some x => Value.num x
        | none => Value.str "#ERROR") = Value.num (.num (Q.ofNat (j + 1)))
  rw [hrepl, jsEval_digits_plus_one j]
  show Value.num (.num (Q.add (Q.ofNat j) (Q.ofNat 1))) = _
  rw [Qadd_ofNat]

theorem optValEq_ofNat_ne (a b : Nat) (h : a ≠ b) :
    optValEq (some (Value.num (.num (Q.ofNat a)))) (Value.num (.num (Q.ofNat b))) = false := by
  simp only [optValEq, Value.seq, JSNum.seq, Q.eqb, Q.ofNat, decide_eq_false_iff_not]
  push_cast
  omega

theorem recalcStep_00 (j k : Nat) (hj : j ≠ k + 1) :
    recalcStep (store2N j k, false) "0-0" = (store2N (k + 1) k, true) := by
  show (if optValEq (some (Value.num (.num (Q.ofNat j))))
          (evaluateFormula "=B1+1" (store2N j k)) = true
        then (store2N j k, false)
        else ((store2N j k).set "0-0"
          ⟨"=B1+1", some "=B1+1", some (evaluateFormula "=B1+1" (store2N j k))⟩, true))
      = (store2N (k + 1) k, true)
  rw [eval_B1_store2N j k, optValEq_ofNat_ne j (k + 1) hj]
  simp only [Bool.false_eq_true, if_false]
  rfl

theorem recalcStep_01 (j k : Nat) (hk : k ≠ j + 1) :
    recalcStep (store2N j k, true) "0-1" = (store2N j (j + 1), true) := by
  show (if optValEq (some (Value.num (.num (Q.ofNat k))))
          (evaluateFormula "=A1+1" (store2N j k)) = true
        then (store2N j k, true)
        else ((store2N j k).set "0-1"
          ⟨"=A1+1", some "=A1+1", some (evaluateFormula "=A1+1" (store2N j k))⟩, true))
      = (store2N j (j + 1), true)
  rw [eval_A1_store2N j k, optValEq_ofNat_ne k (j + 1) hk]
  simp only [Bool.false_eq_true, if_false]
  rfl

/-- One full recalculation pass on the cycle store: both cells change, and the
pass always reports `changed = true`. -/
theorem recalcPass_store2N (j k : Nat) (hj : j ≠ k + 1) :
    recalcPass (store2N j k) = (store2N (k + 1) (k + 2), true) := by
  show List.foldl recalcStep (store2N j k, false)
      (List.map (fun kv => kv.1) (store2N j k)) = _
  rw [show List.map (fun kv => kv.1) (store2N j k) = ["0-0", "0-1"] from rfl]
  simp only [List.foldl]
  rw [recalcStep_00 j k hj, recalcStep_01 (k + 1) k (by omega)]

/-- The store resulting from the two edits `setCell(A1, "=B1+1")` then
`setCell(B1, "=A1+1")`, at the point where the second edit enters its
recalculation loop (the direct write of `B1`, after the first `updateCell`
converged). -/
def cycleStore : Store := directWrite 0 1 "=A1+1" (updateCell 10 0 0 "=B1+1" [])

theorem cycleStore_eq : cycleStore = store2N 1 2 := by decide

theorem passIter_cycle (n : Nat) :
    passIter n cycleStore = store2N (2 * n + 1) (2 * n + 2) := by
  induction n with
  | zero =>
    show cycleStore = store2N (2 * 0 + 1) (2 * 0 + 2)
    rw [cycleStore_eq]
  | succ n ih =>
    show (recalcPass (passIter n cycleStore)).1 = _
    rw [ih, recalcPass_store2N (2 * n + 1) (2 * n + 2) (by omega)]
    show store2N (2 * n + 2 + 1) (2 * n + 2 + 2) = store2N (2 * (n + 1) + 1) (2 * (n + 1) + 2)
    congr 1

/-- C1 — the recalculation triggered by `setCell(B1, "=A1+1")` after
`setCell(A1, "=B1+1")` never stabilizes: after any number `n` of passes over
`cycleStore`, the next pass still reports a change (the cached values grow by
`2` each pass, reaching `2n+1` and `2n+2`).  Hence the source loop
`while (changed)`, which has no pass bound, never exits on this input, contrary
to the claimed bounded number of passes. -/
theorem C1_cycle_never_stabilizes (n : Nat) :
    (recalcPass (passIter n cycleStore)).2 = true := by
  rw [passIter_cycle n, recalcPass_store2N (2 * n + 1) (2 * n + 2) (by omega)]

end Spreadsheet
